import Mathlib

/-!
Verification of the dasharr reranker: the scoring service (`app.py`) and the
CSV enrichment job (`enrich_csv.py`).

Python strings are modelled as lists of characters: `str.strip` is `strip`,
`s.split("|")` is `List.splitOn` at the pipe character, `"|".join` is
`List.intercalate` with a singleton pipe, and `s.startswith(p)` is
`startsWithL p s`.  The pretrained tokenizer and model are external and appear
as abstract function parameters; the logits tensor they produce is modelled as
a shape together with row-major data.
-/

abbrev Str : Type := List Char

/-- Model of Python `str.strip`: drop whitespace from both ends. -/
def strip (s : Str) : Str :=
  ((s.dropWhile Char.isWhitespace).reverse.dropWhile Char.isWhitespace).reverse

/-- `startsWithL p s` models Python `s.startswith(p)`. -/
def startsWithL : Str → Str → Bool
  | [], _ => true
  | _ :: _, [] => false
  | a :: p, b :: s => a == b && startsWithL p s

/-- The decimal digit character for `d` (meaningful for `d < 10`). -/
def digitChar (d : Nat) : Char := Char.ofNat (48 + d)

/-- Decimal digits of a natural number, most significant first; the first
argument is recursion fuel (any fuel above the digit count is enough). -/
def natStrAux : Nat → Nat → Str
  | 0, _ => []
  | fuel + 1, n =>
      if n < 10 then [digitChar n] else natStrAux fuel (n / 10) ++ [digitChar (n % 10)]

/-- Decimal digits of `n`, most significant first. -/
def natStr (n : Nat) : Str := natStrAux (n + 1) n

/-- Exactly three zero-padded decimal digits of `n % 1000`. -/
def pad3 (n : Nat) : Str :=
  [digitChar (n / 100 % 10), digitChar (n / 10 % 10), digitChar (n % 10)]

/-- Model of Python float formatting `"%.3f"` on rationals: round to the
nearest thousandth (the direction of half-way ties is immaterial to every use
below) and print with exactly three digits after the decimal point.  The
scaled value `⌊q * 1000 + 1/2⌋` is computed directly on the numerator and
denominator so that it evaluates by kernel reduction; `format3_scaled` below
proves the two forms equal. -/
def format3 (q : ℚ) : Str :=
  let n : ℤ := (2000 * q.num + q.den) / (2 * (q.den : ℤ))
  if n < 0 then '-' :: (natStr ((-n).toNat / 1000) ++ '.' :: pad3 ((-n).toNat % 1000))
  else natStr (n.toNat / 1000) ++ '.' :: pad3 (n.toNat % 1000)

/-- The fixed clause marker `"reranker score "` (note the trailing space). -/
def rerankerMarker : Str := "reranker score ".data

/-- Model of the per-row rewrite of the `reasons` column inside `flush`
(enrich_csv.py lines 97-101): strip the current value, split it on pipes,
strip each clause, keep the nonempty clauses that do not start with the
marker, append the freshly formatted score clause, and rejoin with pipes.
(The Python comprehension filters on the stripped clause and yields the
stripped clause; mapping `strip` first and then filtering is the same.) -/
def rewriteReasons (reasons : Str) (s : ℚ) : Str :=
  let r := strip reasons
  let parts := ((r.splitOn '|').map strip).filter
    (fun p => !p.isEmpty && !startsWithL rerankerMarker p)
  List.intercalate ['|'] (parts ++ [rerankerMarker ++ format3 s])

/-- A CSV row: the three columns the job reads, plus the remaining opaque
columns that must be round-tripped unchanged. -/
structure Row where
  gameName : Str
  candidateTitle : Str
  reasons : Str
  other : List (Str × Str)
deriving DecidableEq

/-- The score engine as the enrichment job sees it: queries and texts in,
scores out (`score_pairs` with the tokenizer, model, device and maximum
length already applied). -/
abbrev Engine : Type := List Str → List Str → List ℚ

/-- The mutable state of `main` in enrich_csv.py: the three parallel buffers,
the running total, the rows written so far, and (instrumentation for the
claims about invocation counts) the log of engine calls. -/
structure JobState where
  bufRows : List Row
  bufQ : List Str
  bufT : List Str
  total : Nat
  out : List Row
  calls : List (List Str × List Str)
deriving DecidableEq

/-- Model of `flush` (enrich_csv.py lines 91-106): score the buffered batch,
rewrite each row's `reasons`, write the rows out, and clear the buffers.
An empty buffer returns immediately without calling the engine. -/
def flush (engine : Engine) (st : JobState) : JobState :=
  if st.bufRows.isEmpty then st
  else
    let scores := engine st.bufQ st.bufT
    let written := (st.bufRows.zip scores).map
      (fun rs => { rs.1 with reasons := rewriteReasons rs.1.reasons rs.2 })
    { bufRows := [], bufQ := [], bufT := [],
      total := st.total + written.length,
      out := st.out ++ written,
      calls := st.calls ++ [(st.bufQ, st.bufT)] }

/-- Model of the reader loop of `main` (enrich_csv.py lines 108-121): the cap
check at the top of each iteration (`break` leaves the rest of the input
unread), the blank-field pass-through, buffering, and the full-batch flush. -/
def jobLoop (engine : Engine) (batchSize maxRows : Nat) :
    List Row → JobState → JobState
  | [], st => st
  | row :: rest, st =>
    if maxRows ≠ 0 ∧ maxRows ≤ st.total then st
    else
      let q := strip row.gameName
      let t := strip row.candidateTitle
      if q.isEmpty || t.isEmpty then
        jobLoop engine batchSize maxRows rest
          { st with out := st.out ++ [row], total := st.total + 1 }
      else
        let st' := { st with bufRows := st.bufRows ++ [row],
                             bufQ := st.bufQ ++ [q], bufT := st.bufT ++ [t] }
        if batchSize ≤ st'.bufRows.length then
          jobLoop engine batchSize maxRows rest (flush engine st')
        else
          jobLoop engine batchSize maxRows rest st'

/-- The empty starting state of a run. -/
def initState : JobState := ⟨[], [], [], 0, [], []⟩

/-- Model of `main` (enrich_csv.py lines 108-123): run the reader loop from
the empty state, then perform the final flush (which also runs after an
early `break`). -/
def runJob (engine : Engine) (batchSize maxRows : Nat) (rows : List Row) :
    JobState :=
  flush engine (jobLoop engine batchSize maxRows rows initState)

/-- One element of a `/batch_score` request body. -/
structure BatchPair where
  query : Str
  text : Str
  id : Option Str
deriving DecidableEq

/-- Model of the `batch_score` handler (app.py lines 110-120).  The first
component is the response's score list (id paired with score); the second
logs the engine invocations made while handling the request. -/
def batchScore (engine : Engine) (pairs : List BatchPair) :
    List (Option Str × ℚ) × List (List Str × List Str) :=
  if pairs.isEmpty then ([], [])
  else
    let queries := pairs.map (·.query)
    let texts := pairs.map (·.text)
    let scores := engine queries texts
    ((pairs.zip scores).map (fun ps => (ps.1.id, ps.2)), [(queries, texts)])

/-- A logits tensor: its shape and its data in row-major order. -/
structure Tensor where
  shape : List Nat
  data : List ℚ
deriving DecidableEq

/-- `t.dim()`. -/
def Tensor.dim (t : Tensor) : Nat := t.shape.length

/-- `t.size(0)`. -/
def Tensor.size0 (t : Tensor) : Nat := t.shape.headD 0

/-- `t.size(-1)`. -/
def Tensor.sizeLast (t : Tensor) : Nat := t.shape.getLastD 0

/-- Consecutive chunks of length `k` (the last one possibly shorter): the
row-major view of a tensor's data as rows.  The first argument of the
auxiliary function is recursion fuel; `l.length` is always enough. -/
def chunksAux (k : Nat) : Nat → List ℚ → List (List ℚ)
  | _, [] => []
  | 0, l => [l]
  | fuel + 1, a :: l =>
      if k = 0 then [a :: l]
      else (a :: l).take k :: chunksAux k fuel ((a :: l).drop k)

/-- Consecutive chunks of length `k` of a list. -/
def chunks (k : Nat) (l : List ℚ) : List (List ℚ) := chunksAux k l.length l

/-- `t.squeeze(-1)`: drop a trailing dimension of size 1. -/
def Tensor.squeezeLast (t : Tensor) : Tensor :=
  if t.sizeLast = 1 then ⟨t.shape.dropLast, t.data⟩ else t

/-- An elementwise function applied to a tensor (`torch.sigmoid`, with the
scalar function left abstract). -/
def Tensor.mapData (f : ℚ → ℚ) (t : Tensor) : Tensor := ⟨t.shape, t.data.map f⟩

/-- `torch.softmax(t, dim=-1)`: each row of the last dimension is normalized
by the sum of the exponentials of its entries; `ex` is the abstract scalar
exponential. -/
def Tensor.softmaxLast (ex : ℚ → ℚ) (t : Tensor) : Tensor :=
  ⟨t.shape,
    ((chunks t.sizeLast t.data).map (fun r => r.map (fun x => ex x / (r.map ex).sum))).flatten⟩

/-- `t[:, i]` on a 2-dimensional tensor: element `i` of each row. -/
def Tensor.col (t : Tensor) (i : Nat) : Tensor :=
  ⟨t.shape.dropLast, (chunks t.sizeLast t.data).map (fun r => r.getD i 0)⟩

/-- `t.reshape(n, -1)`. -/
def Tensor.reshapeRows (t : Tensor) (n : Nat) : Tensor :=
  ⟨[n, t.data.length / n], t.data⟩

/-- `t.tolist()` on a 1-dimensional tensor, as plain numbers. -/
def Tensor.toScores (t : Tensor) : List ℚ := t.data

/-- Model of `_score_pairs` in app.py (lines 71-101).  External collaborators
are abstract parameters: `tokenize` models `tokenizer(queries, texts, ...)`,
`toDevice` models moving the encoded batch to the device, `infer` models
`model(**enc).logits` under `torch.no_grad`, `sig` is the scalar sigmoid and
`ex` the scalar exponential used by softmax.  The shape dispatch and the
normalization pipeline are the code under verification. -/
def appScorePairs {β : Type} (tokenize : List Str → List Str → Nat → β)
    (toDevice : β → Str → β) (infer : β → Tensor) (sig ex : ℚ → ℚ)
    (device : Str) (maxLength : Nat) (queries texts : List Str) : List ℚ :=
  let enc := toDevice (tokenize queries texts maxLength) device
  let logits := infer enc
  let scores :=
    if logits.dim = 2 ∧ logits.sizeLast = 1 then
      (logits.squeezeLast).mapData sig
    else if logits.dim = 2 ∧ logits.sizeLast = 2 then
      (logits.softmaxLast ex).col 1
    else
      ((logits.reshapeRows logits.size0).col 0).mapData sig
  scores.toScores

/-- Model of `score_pairs` in enrich_csv.py (lines 25-51), with the same
abstract collaborators as `appScorePairs`; the body is the translation of
that file's copy of the tokenize / infer / normalize pipeline. -/
def enrichScorePairs {β : Type} (tokenize : List Str → List Str → Nat → β)
    (toDevice : β → Str → β) (infer : β → Tensor) (sig ex : ℚ → ℚ)
    (device : Str) (maxLength : Nat) (queries texts : List Str) : List ℚ :=
  let enc := toDevice (tokenize queries texts maxLength) device
  let logits := infer enc
  let scores :=
    if logits.dim = 2 ∧ logits.sizeLast = 1 then
      (logits.squeezeLast).mapData sig
    else if logits.dim = 2 ∧ logits.sizeLast = 2 then
      (logits.softmaxLast ex).col 1
    else
      ((logits.reshapeRows logits.size0).col 0).mapData sig
  scores.toScores

/-- Forget the `reasons` column: the projection of a row onto the columns the
job must leave untouched. -/
def eraseReasons (r : Row) : Row := { r with reasons := [] }

/-- A row the job passes through: its query field or its text field is blank
after stripping. -/
def blankRow (row : Row) : Prop :=
  strip row.gameName = [] ∨ strip row.candidateTitle = []

instance (row : Row) : Decidable (blankRow row) := by
  unfold blankRow
  infer_instance

/-- How many clauses of a reasons value match the marker: split on pipes,
strip each clause, count the clauses that start with the marker. -/
def markerClauseCount (s : Str) : Nat :=
  (((s.splitOn '|').map strip).filter (fun p => startsWithL rerankerMarker p)).length

/-- A constant engine returning score 0.812 for every pair. -/
def engine812 : Engine := fun qs _ => qs.map fun _ => Rat.divInt 203 250

/-- A constant engine returning score 0.900 for every pair. -/
def engine900 : Engine := fun qs _ => qs.map fun _ => Rat.divInt 9 10

/-- The example row of the spec. -/
def chessRow : Row := ⟨"Chess".data, "Chess Online".data, "title match".data, []⟩

/-- A row whose query field is blank after stripping. -/
def blankQueryRow : Row := ⟨" ".data, "Chess Online".data, "note".data, []⟩

/-- A trivial tokenizer model: keep the two lists. -/
def pairTok : List Str → List Str → Nat → List Str × List Str := fun qs ts _ => (qs, ts)

/-- A device move model that does nothing to the encoded batch. -/
def idMove : List Str × List Str → Str → List Str × List Str := fun e _ => e

/-- A stub model with a single-logit head: shape `(batch, 1)`, all zeros. -/
def oneLogitInfer : List Str × List Str → Tensor :=
  fun e => ⟨[e.1.length, 1], e.1.map fun _ => 0⟩

/-- A constant one-half sigmoid stub (it satisfies the range hypotheses). -/
def halfSig : ℚ → ℚ := fun _ => 1 / 2

/-- A constant positive exponential stub. -/
def oneEx : ℚ → ℚ := fun _ => 1

/-- A sample batch pair with an id. -/
def pair1 : BatchPair := ⟨"a".data, "b".data, some "x".data⟩

/-- The output-shape dispatch and normalization pipeline, factored over the
logits tensor; both scoring functions inline exactly this computation (see
`appScorePairs_eq_normalize`). -/
def normalizeLogits (sig ex : ℚ → ℚ) (logits : Tensor) : List ℚ :=
  let scores :=
    if logits.dim = 2 ∧ logits.sizeLast = 1 then
      (logits.squeezeLast).mapData sig
    else if logits.dim = 2 ∧ logits.sizeLast = 2 then
      (logits.softmaxLast ex).col 1
    else
      ((logits.reshapeRows logits.size0).col 0).mapData sig
  scores.toScores

/-! ## Theorems -/

/-- The scaled integer computed inside `format3` is `⌊q * 1000 + 1/2⌋`,
the numerator of the nearest-thousandth rounding. -/
theorem format3_scaled (q : ℚ) :
    (2000 * q.num + q.den) / (2 * (q.den : ℤ)) = ⌊q * 1000 + 1 / 2⌋ := by
  have hq : (q.num : ℚ) / (q.den : ℚ) = q := Rat.num_div_den q
  have hd : (q.den : ℚ) ≠ 0 := Nat.cast_ne_zero.mpr q.den_nz
  have h : q * 1000 + 1 / 2 =
      ((2000 * q.num + (q.den : ℤ) : ℤ) : ℚ) / ((2 * q.den : ℕ) : ℚ) := by
    conv_lhs => rw [← hq]
    push_cast
    field_simp
    ring
  rw [h, Rat.floor_intCast_div_natCast]
  push_cast
  rfl

/-! ### Facts about `strip` -/

/-- `strip` phrased through Mathlib's `rdropWhile`. -/
theorem strip_eq (s : Str) :
    strip s = List.rdropWhile Char.isWhitespace (s.dropWhile Char.isWhitespace) := rfl

/-- The head of a `dropWhile` result fails the test. -/
theorem dropWhile_head_not (p : Char → Bool) :
    ∀ (l : Str) {a : Char} {t : Str}, l.dropWhile p = a :: t → ¬ p a := by
  intro l
  induction l with
  | nil => intro a t h; simp at h
  | cons b l ih =>
      intro a t h
      rw [List.dropWhile_cons] at h
      split at h
      · exact ih h
      · next hb => cases h; exact hb

/-- A member of `strip s` is a member of `s`. -/
theorem mem_of_mem_strip {s : Str} {c : Char} (h : c ∈ strip s) : c ∈ s := by
  rw [strip_eq] at h
  exact (List.dropWhile_suffix _).subset (( List.rdropWhile_prefix _ _).subset h)

/-- The head of a nonempty `strip` result is not whitespace. -/
theorem strip_head_not_ws {s : Str} {a : Char} {t : Str} (h : strip s = a :: t) :
    ¬ a.isWhitespace := by
  obtain ⟨r, hr⟩ := List.rdropWhile_prefix Char.isWhitespace
    (s.dropWhile Char.isWhitespace)
  rw [← strip_eq, h] at hr
  exact dropWhile_head_not Char.isWhitespace s
    (show List.dropWhile _ s = a :: (t ++ r) by rw [← hr]; rfl)

/-- The last character of a `strip` result is not whitespace. -/
theorem strip_getLast_not_ws {s : Str} {a : Char} (h : (strip s).getLast? = some a) :
    ¬ a.isWhitespace := by
  rw [strip_eq, List.rdropWhile, List.getLast?_reverse] at h
  rcases hz : (s.dropWhile Char.isWhitespace).reverse.dropWhile Char.isWhitespace with
    _ | ⟨b, t⟩
  · rw [hz] at h; simp at h
  · rw [hz] at h
    simp only [List.head?_cons, Option.some_inj] at h
    exact h ▸ dropWhile_head_not Char.isWhitespace _ hz

/-- `strip` is idempotent. -/
theorem strip_strip (s : Str) : strip (strip s) = strip s := by
  have h1 : (strip s).dropWhile Char.isWhitespace = strip s := by
    cases h : strip s with
    | nil => simp
    | cons a t =>
        have hb : a.isWhitespace = false := by
          simpa using strip_head_not_ws h
        simp [List.dropWhile_cons, hb]
  rw [strip_eq (strip s), h1, strip_eq s, List.rdropWhile_idempotent]

/-- A list whose first and last characters are not whitespace is fixed by
`strip`. -/
theorem strip_eq_self_of_ends {s : Str}
    (h1 : ∀ a t, s = a :: t → a.isWhitespace = false)
    (h2 : ∀ a, s.getLast? = some a → a.isWhitespace = false) :
    strip s = s := by
  have front : s.dropWhile Char.isWhitespace = s := by
    cases s with
    | nil => simp
    | cons a t => simp [List.dropWhile_cons, h1 a t rfl]
  rw [strip_eq, front, List.rdropWhile_eq_self_iff]
  intro hs
  have := h2 (s.getLast hs) (List.getLast?_eq_getLast s hs)
  simpa using this

/-! ### Facts about the formatted score clause -/

/-- Digit characters are neither whitespace nor pipes. -/
theorem digitChar_facts : ∀ k < 10,
    (digitChar k).isWhitespace = false ∧ digitChar k ≠ '|' := by decide

/-- Every character `natStrAux` produces is a decimal digit character. -/
theorem natStrAux_chars :
    ∀ fuel n c, c ∈ natStrAux fuel n → ∃ k, k < 10 ∧ c = digitChar k := by
  intro fuel
  induction fuel with
  | zero => intro n c h; simp [natStrAux] at h
  | succ fuel ih =>
      intro n c h
      by_cases hn : n < 10
      · simp only [natStrAux, if_pos hn, List.mem_singleton] at h
        exact ⟨n, hn, h⟩
      · simp only [natStrAux, if_neg hn, List.mem_append, List.mem_singleton] at h
        rcases h with h | h
        · exact ih _ _ h
        · exact ⟨n % 10, Nat.mod_lt _ (by norm_num), h⟩

/-- `natStr` never returns the empty list. -/
theorem natStr_ne_nil (n : Nat) : natStr n ≠ [] := by
  unfold natStr natStrAux
  by_cases hn : n < 10 <;> simp [hn]

/-- Every character of a `pad3` rendering is a decimal digit character. -/
theorem pad3_chars (m : Nat) : ∀ c ∈ pad3 m, ∃ k, k < 10 ∧ c = digitChar k := by
  intro c hc
  simp only [pad3, List.mem_cons, List.not_mem_nil, or_false] at hc
  rcases hc with h | h | h <;> exact ⟨_, Nat.mod_lt _ (by norm_num), h⟩

/-- Every character of a formatted score is a minus sign, a dot, or a digit. -/
theorem format3_chars (q : ℚ) :
    ∀ c ∈ format3 q, c = '-' ∨ c = '.' ∨ ∃ k, k < 10 ∧ c = digitChar k := by
  intro c hc
  simp only [format3] at hc
  split at hc
  · simp only [List.mem_cons, List.mem_append] at hc
    rcases hc with h | h | h
    · exact Or.inl h
    · exact Or.inr (Or.inr (natStrAux_chars _ _ _ h))
    · rcases h with h | h
      · exact Or.inr (Or.inl h)
      · exact Or.inr (Or.inr (pad3_chars _ _ h))
  · simp only [List.mem_append, List.mem_cons] at hc
    rcases hc with h | h | h
    · exact Or.inr (Or.inr (natStrAux_chars _ _ _ h))
    · exact Or.inr (Or.inl h)
    · exact Or.inr (Or.inr (pad3_chars _ _ h))

/-- A formatted score never contains a pipe. -/
theorem pipe_not_mem_format3 (q : ℚ) : '|' ∉ format3 q := by
  intro h
  rcases format3_chars q _ h with h' | h' | ⟨k, hk, h'⟩
  · exact absurd h'.symm (by decide)
  · exact absurd h'.symm (by decide)
  · exact (digitChar_facts k hk).2 h'.symm

/-- A formatted score ends in a digit character. -/
theorem format3_getLast? (q : ℚ) :
    ∃ k, (format3 q).getLast? = some (digitChar k) ∧ k < 10 := by
  have hx : ∀ (X : Str) (m : Nat),
      (X ++ '.' :: pad3 m).getLast? = some (digitChar (m % 10)) := by
    intro X m
    rw [List.getLast?_append_of_ne_nil _ (by simp)]
    rfl
  simp only [format3]
  split
  · exact ⟨_, by rw [← List.cons_append]; exact hx _ _, Nat.mod_lt _ (by norm_num)⟩
  · exact ⟨_, hx _ _, Nat.mod_lt _ (by norm_num)⟩

/-- A list starts with itself followed by anything. -/
theorem startsWithL_append (p t : Str) : startsWithL p (p ++ t) = true := by
  induction p with
  | nil => rfl
  | cons a p ih => simp [startsWithL, ih]

/-- The freshly appended clause: it is nonempty. -/
theorem clause_ne_nil (q : ℚ) : rerankerMarker ++ format3 q ≠ [] := by
  simp [rerankerMarker]

/-- The freshly appended clause contains no pipe. -/
theorem pipe_not_mem_clause (q : ℚ) : '|' ∉ rerankerMarker ++ format3 q := by
  intro h
  rcases List.mem_append.mp h with h | h
  · revert h; decide
  · exact pipe_not_mem_format3 q h

/-- The freshly appended clause starts with the marker. -/
theorem clause_startsWith (q : ℚ) :
    startsWithL rerankerMarker (rerankerMarker ++ format3 q) = true :=
  startsWithL_append _ _

/-- A formatted score is never the empty list. -/
theorem format3_ne_nil (q : ℚ) : format3 q ≠ [] := by
  simp only [format3]
  split
  · simp
  · simp

/-- The freshly appended clause is fixed by `strip`: it starts with `'r'` and
ends with a digit. -/
theorem strip_clause (q : ℚ) :
    strip (rerankerMarker ++ format3 q) = rerankerMarker ++ format3 q := by
  apply strip_eq_self_of_ends
  · intro a t h
    have ha : a = 'r' := by
      have := congrArg List.head? h
      simpa [rerankerMarker] using this.symm
    simp [ha]
  · intro a h
    rw [List.getLast?_append_of_ne_nil _ (format3_ne_nil q)] at h
    obtain ⟨k, hk, hk10⟩ := format3_getLast? q
    rw [hk, Option.some_inj] at h
    rw [← h]
    exact (digitChar_facts k hk10).1

/-! ### The rewrite rule: splitting the rejoined clause list -/

/-- No segment produced by `splitOn` contains the separator. -/
theorem not_mem_of_mem_splitOn {x : Char} :
    ∀ (xs : Str), ∀ l ∈ xs.splitOn x, x ∉ l := by
  intro xs
  induction xs with
  | nil =>
      intro l hl
      simp only [List.splitOn_nil, List.mem_singleton] at hl
      simp [hl]
  | cons a xs ih =>
      intro l hl
      simp only [List.splitOn] at hl ih ⊢
      rw [List.splitOnP_cons] at hl
      by_cases hax : a = x
      · rw [if_pos (by simp [hax])] at hl
        rcases List.mem_cons.mp hl with h | h
        · simp [h]
        · exact ih l h
      · rw [if_neg (by simp [hax])] at hl
        rcases hsp : xs.splitOnP (fun b => b == x) with _ | ⟨h0, t0⟩
        · exact absurd hsp (List.splitOnP_ne_nil _ xs)
        · rw [hsp] at hl
          simp only [List.modifyHead] at hl
          rcases List.mem_cons.mp hl with h | h
          · subst h
            intro hm
            rcases List.mem_cons.mp hm with h | h
            · exact hax h.symm
            · exact ih h0 (by rw [hsp]; exact List.mem_cons_self _ _) h
          · exact ih l (by rw [hsp]; exact List.mem_cons_of_mem _ h)

/-- Every kept clause inside `rewriteReasons` is a `strip` image, nonempty,
not marker-prefixed, and pipe-free. -/
theorem kept_clause_props (r : Str) (p : Str)
    (hp : p ∈ ((r.splitOn '|').map strip).filter
      (fun p => !p.isEmpty && !startsWithL rerankerMarker p)) :
    strip p = p ∧ p ≠ [] ∧ startsWithL rerankerMarker p = false ∧ '|' ∉ p := by
  rw [List.mem_filter] at hp
  obtain ⟨hmem, hpred⟩ := hp
  obtain ⟨seg, hseg, rfl⟩ := List.mem_map.mp hmem
  have h12 : (strip seg).isEmpty = false ∧
      startsWithL rerankerMarker (strip seg) = false := by
    simpa using hpred
  refine ⟨strip_strip seg, ?_, h12.2, ?_⟩
  · intro h
    rw [h] at h12
    simp at h12
  · intro hpipe
    exact not_mem_of_mem_splitOn r seg hseg (mem_of_mem_strip hpipe)

/-- Splitting a `rewriteReasons` output on pipes recovers the kept clauses
followed by the new clause. -/
theorem rewriteReasons_splitOn (r : Str) (s : ℚ) :
    (rewriteReasons r s).splitOn '|' =
      (((strip r).splitOn '|').map strip).filter
        (fun p => !p.isEmpty && !startsWithL rerankerMarker p)
      ++ [rerankerMarker ++ format3 s] := by
  simp only [rewriteReasons]
  apply List.splitOn_intercalate
  · intro l hl
    rcases List.mem_append.mp hl with h | h
    · exact (kept_clause_props _ l h).2.2.2
    · rw [List.mem_singleton] at h
      subst h
      exact pipe_not_mem_clause s
  · simp

/-- The head of an intercalation starting with a nonempty piece. -/
theorem intercalate_head? (sep : Str) (l : Str) (rest : List Str) (hl : l ≠ []) :
    (List.intercalate sep (l :: rest)).head? = l.head? := by
  cases rest with
  | nil => simp [List.intercalate]
  | cons r rs =>
      rw [List.intercalate, List.intersperse_cons_cons, List.flatten_cons]
      cases l with
      | nil => exact absurd rfl hl
      | cons b t => simp

/-- The last element of an intercalation ending in a nonempty piece. -/
theorem intercalate_getLast? (sep : Str) (c : Str) (hc : c ≠ []) :
    ∀ init : List Str,
      (List.intercalate sep (init ++ [c])).getLast? = c.getLast? := by
  intro init
  induction init with
  | nil => simp [List.intercalate]
  | cons p ps ih =>
      rw [List.cons_append, List.intercalate]
      rcases hpc : ps ++ [c] with _ | ⟨y, ys⟩
      · exact absurd hpc (by simp)
      · rw [List.intersperse_cons_cons, List.flatten_cons, List.flatten_cons]
        have key : (List.intersperse sep (y :: ys)).flatten
            = List.intercalate sep (ps ++ [c]) := by
          rw [List.intercalate, hpc]
        have hne : (List.intersperse sep (y :: ys)).flatten ≠ [] := by
          rw [key]
          intro h0
          have h1 := ih
          rw [h0] at h1
          rw [show ([] : Str).getLast? = none from rfl] at h1
          exact hc (List.getLast?_eq_none_iff.mp h1.symm)
        rw [List.getLast?_append_of_ne_nil _ (by
              intro h0
              rcases List.append_eq_nil.mp h0 with ⟨-, h0⟩
              exact hne h0),
            List.getLast?_append_of_ne_nil _ hne, key, ih]

/-- A `rewriteReasons` output is fixed by `strip`. -/
theorem strip_rewriteReasons (r : Str) (s : ℚ) :
    strip (rewriteReasons r s) = rewriteReasons r s := by
  apply strip_eq_self_of_ends
  · intro a t h
    simp only [rewriteReasons] at h
    rcases hk : (((strip r).splitOn '|').map strip).filter
        (fun p => !p.isEmpty && !startsWithL rerankerMarker p) with _ | ⟨p0, ps⟩
    · rw [hk, List.nil_append] at h
      have hhead := congrArg List.head? h
      rw [intercalate_head? _ _ _ (clause_ne_nil s)] at hhead
      have ha : a = 'r' := by
        simpa [rerankerMarker] using hhead.symm
      simp [ha]
    · rw [hk, List.cons_append] at h
      have hp0 := kept_clause_props (strip r) p0 (hk ▸ List.mem_cons_self p0 ps)
      have hhead := congrArg List.head? h
      rw [intercalate_head? _ _ _ hp0.2.1] at hhead
      rcases hp : p0 with _ | ⟨b, t0⟩
      · exact absurd hp hp0.2.1
      · rw [hp] at hhead
        simp only [List.head?_cons, Option.some_inj] at hhead
        have : strip p0 = p0 := hp0.1
        have hb : ¬ b.isWhitespace := by
          apply strip_head_not_ws (s := p0)
          rw [hp0.1, hp]
        rw [← hhead]
        simpa using hb
  · intro a h
    simp only [rewriteReasons] at h
    rw [intercalate_getLast? _ _ (clause_ne_nil s)] at h
    rw [List.getLast?_append_of_ne_nil _ (format3_ne_nil s)] at h
    obtain ⟨k, hk, hk10⟩ := format3_getLast? s
    rw [hk, Option.some_inj] at h
    rw [← h]
    exact (digitChar_facts k hk10).1

/-- Stripping the clauses of a rewritten value gives the kept clauses
followed by the new clause. -/
theorem rewriteReasons_clauses (r : Str) (s : ℚ) :
    ((rewriteReasons r s).splitOn '|').map strip =
      (((strip r).splitOn '|').map strip).filter
        (fun p => !p.isEmpty && !startsWithL rerankerMarker p)
      ++ [rerankerMarker ++ format3 s] := by
  rw [rewriteReasons_splitOn, List.map_append]
  congr 1
  · conv_rhs => rw [← List.map_id ((((strip r).splitOn '|').map strip).filter
      (fun p => !p.isEmpty && !startsWithL rerankerMarker p))]
    apply List.map_congr_left
    intro p hp
    exact (kept_clause_props _ p hp).1
  · simp [strip_clause]

/-- The marker clauses of a rewritten value consist of exactly the new
clause. -/
theorem rewriteReasons_marker_clauses (r : Str) (s : ℚ) :
    (((rewriteReasons r s).splitOn '|').map strip).filter
      (fun p => startsWithL rerankerMarker p) = [rerankerMarker ++ format3 s] := by
  rw [rewriteReasons_clauses, List.filter_append]
  have h1 : ((((strip r).splitOn '|').map strip).filter
      (fun p => !p.isEmpty && !startsWithL rerankerMarker p)).filter
      (fun p => startsWithL rerankerMarker p) = [] := by
    rw [List.filter_eq_nil_iff]
    intro p hp
    have := (kept_clause_props _ p hp).2.2.1
    simp [this]
  rw [h1]
  simp [clause_startsWith]

/-- The kept clauses of a rewritten value are the kept clauses of the
original: the old score clause is dropped, everything else survives. -/
theorem kept_rewriteReasons (r : Str) (s : ℚ) :
    (((strip (rewriteReasons r s)).splitOn '|').map strip).filter
      (fun p => !p.isEmpty && !startsWithL rerankerMarker p)
    = (((strip r).splitOn '|').map strip).filter
      (fun p => !p.isEmpty && !startsWithL rerankerMarker p) := by
  rw [strip_rewriteReasons, rewriteReasons_clauses, List.filter_append]
  have h1 : (((((strip r).splitOn '|').map strip).filter
      (fun p => !p.isEmpty && !startsWithL rerankerMarker p)).filter
      (fun p => !p.isEmpty && !startsWithL rerankerMarker p))
      = (((strip r).splitOn '|').map strip).filter
        (fun p => !p.isEmpty && !startsWithL rerankerMarker p) :=
    List.filter_eq_self.mpr (fun a ha => (List.mem_filter.mp ha).2)
  rw [h1]
  simp [clause_startsWith]

/-- Rewriting twice keeps only the second score: the old clause is replaced,
never duplicated. -/
theorem rewriteReasons_idem (r : Str) (s1 s2 : ℚ) :
    rewriteReasons (rewriteReasons r s1) s2 = rewriteReasons r s2 := by
  have h : rewriteReasons (rewriteReasons r s1) s2
      = List.intercalate ['|']
        (((((strip (rewriteReasons r s1)).splitOn '|').map strip).filter
          (fun p => !p.isEmpty && !startsWithL rerankerMarker p))
          ++ [rerankerMarker ++ format3 s2]) := rfl
  rw [h, kept_rewriteReasons]
  rfl

/-! ### The enrichment loop -/

/-- Erasing `reasons` commutes with the rewrite `flush` applies. -/
theorem eraseReasons_rewrite (r : Row) (x : Str) :
    eraseReasons { r with reasons := x } = eraseReasons r := rfl

/-- `flush` writes exactly the rows it adds to the total. -/
theorem flush_out_total (engine : Engine) (st : JobState)
    (h : st.out.length = st.total) :
    (flush engine st).out.length = (flush engine st).total := by
  unfold flush
  split
  · exact h
  · simp [h]

/-- The loop writes exactly the rows it adds to the total. -/
theorem jobLoop_out_total (engine : Engine) (batchSize maxRows : Nat) :
    ∀ (rows : List Row) (st : JobState), st.out.length = st.total →
      (jobLoop engine batchSize maxRows rows st).out.length
        = (jobLoop engine batchSize maxRows rows st).total := by
  intro rows
  induction rows with
  | nil => intro st h; simpa [jobLoop] using h
  | cons row rest ih =>
      intro st h
      simp only [jobLoop]
      split
      · exact h
      · split
        · exact ih _ (by simp [h])
        · split
          · exact ih _ (flush_out_total _ _ (by simp [h]))
          · exact ih _ (by simp [h])

/-- A full run writes exactly `total` rows. -/
theorem runJob_out_total (engine : Engine) (batchSize maxRows : Nat)
    (rows : List Row) :
    (runJob engine batchSize maxRows rows).out.length
      = (runJob engine batchSize maxRows rows).total :=
  flush_out_total _ _ (jobLoop_out_total _ _ _ rows initState rfl)

/-- With a length-preserving engine, `flush` appends the buffered rows to the
output (up to the `reasons` column). -/
theorem flush_out_map_erase (engine : Engine) (st : JobState)
    (hlen : ∀ qs ts, (engine qs ts).length = qs.length)
    (hq : st.bufQ.length = st.bufRows.length) :
    (flush engine st).out.map eraseReasons
      = st.out.map eraseReasons ++ st.bufRows.map eraseReasons := by
  unfold flush
  split
  · next hemp => simp [List.isEmpty_iff.mp hemp]
  · have hzip : (st.bufRows.zip (engine st.bufQ st.bufT)).map Prod.fst
        = st.bufRows :=
      List.map_fst_zip _ _ (by rw [hlen, hq])
    simp only [List.map_append, List.map_map]
    congr 1
    rw [show (eraseReasons ∘ fun rs : Row × ℚ =>
        { rs.1 with reasons := rewriteReasons rs.1.reasons rs.2 })
        = (eraseReasons ∘ Prod.fst) from rfl]
    rw [← List.map_map, hzip]

/-- `flush` leaves the row and query buffers empty. -/
theorem flush_clears (engine : Engine) (st : JobState)
    (hq : st.bufQ.length = st.bufRows.length) :
    (flush engine st).bufRows = [] ∧ (flush engine st).bufQ = [] := by
  unfold flush
  split
  · next hemp =>
      have h1 : st.bufRows = [] := List.isEmpty_iff.mp hemp
      have h2 : st.bufQ = [] := by
        rw [h1] at hq
        exact List.length_eq_zero.mp (by simpa using hq)
    
      exact ⟨h1, h2⟩
  · exact ⟨rfl, rfl⟩

/-- With a length-preserving engine, no cap, and only scorable rows, the loop
plus the final flush emits the pending and incoming rows in order (up to the
`reasons` column). -/
theorem jobLoop_scorable_erase (engine : Engine) (batchSize : Nat)
    (hlen : ∀ qs ts, (engine qs ts).length = qs.length) :
    ∀ (rows : List Row) (st : JobState),
      st.bufQ.length = st.bufRows.length →
      (∀ r ∈ rows, ¬ blankRow r) →
      (flush engine (jobLoop engine batchSize 0 rows st)).out.map eraseReasons
        = st.out.map eraseReasons ++ st.bufRows.map eraseReasons
          ++ rows.map eraseReasons := by
  intro rows
  induction rows with
  | nil =>
      intro st hq _
      simp only [jobLoop, List.map_nil, List.append_nil]
      exact flush_out_map_erase engine st hlen hq
  | cons row rest ih =>
      intro st hq hsc
      have hrow : ¬ blankRow row := hsc row (List.mem_cons_self _ _)
      have hrest : ∀ r ∈ rest, ¬ blankRow r :=
        fun r hr => hsc r (List.mem_cons_of_mem _ hr)
      simp only [blankRow, not_or] at hrow
      simp only [jobLoop]
      split
      · next hcap => simp at hcap
      · split
        · next hblank => simp [List.isEmpty_iff, hrow.1, hrow.2] at hblank
        · set st' : JobState := { st with
            bufRows := st.bufRows ++ [row],
            bufQ := st.bufQ ++ [strip row.gameName],
            bufT := st.bufT ++ [strip row.candidateTitle] } with hst'
          have hq' : st'.bufQ.length = st'.bufRows.length := by
            simp [hst', hq]
          have hcl := flush_clears engine st' hq'
          split
          · rw [ih (flush engine st') (by simp [hcl.1, hcl.2]) hrest, hcl.1,
              flush_out_map_erase engine st' hlen hq']
            simp [hst']
          · rw [ih st' hq' hrest]
            simp [hst']

/-- With a length-preserving engine and no cap, the loop plus the final flush
emits a permutation of the pending and incoming rows (up to the `reasons`
column): a pass-through row can overtake buffered scorable rows, but no row
is lost or duplicated. -/
theorem jobLoop_perm_erase (engine : Engine) (batchSize : Nat)
    (hlen : ∀ qs ts, (engine qs ts).length = qs.length) :
    ∀ (rows : List Row) (st : JobState),
      st.bufQ.length = st.bufRows.length →
      ((flush engine (jobLoop engine batchSize 0 rows st)).out.map
        eraseReasons).Perm
        (st.out.map eraseReasons ++ st.bufRows.map eraseReasons
          ++ rows.map eraseReasons) := by
  intro rows
  induction rows with
  | nil =>
      intro st hq
      simp only [jobLoop, List.map_nil, List.append_nil]
      rw [flush_out_map_erase engine st hlen hq]
  | cons row rest ih =>
      intro st hq
      simp only [jobLoop]
      split
      · next hcap => simp at hcap
      · split
        · refine (ih { st with out := st.out ++ [row], total := st.total + 1 } hq).trans ?_
          simp only [List.map_append, List.map_cons, List.map_nil,
            List.append_assoc, List.singleton_append, List.cons_append,
            List.nil_append]
          exact List.Perm.append_left _ List.perm_middle.symm
        · set st' : JobState := { st with
            bufRows := st.bufRows ++ [row],
            bufQ := st.bufQ ++ [strip row.gameName],
            bufT := st.bufT ++ [strip row.candidateTitle] } with hst'
          have hq' : st'.bufQ.length = st'.bufRows.length := by
            simp [hst', hq]
          have hcl := flush_clears engine st' hq'
          split
          · refine (ih (flush engine st') (by simp [hcl.1, hcl.2])).trans ?_
            rw [hcl.1, flush_out_map_erase engine st' hlen hq']
            simp only [hst', List.map_append, List.map_cons, List.map_nil,
              List.append_assoc, List.singleton_append, List.cons_append,
              List.nil_append]
            rfl
          · refine (ih st' hq').trans ?_
            simp only [hst', List.map_append, List.map_cons, List.map_nil,
              List.append_assoc, List.singleton_append, List.cons_append,
              List.nil_append]
            rfl

/-- Once the cap has been reached, the loop reads nothing further. -/
theorem jobLoop_stopped (engine : Engine) (batchSize maxRows : Nat)
    (hm : maxRows ≠ 0) :
    ∀ (rows : List Row) (st : JobState), maxRows ≤ st.total →
      jobLoop engine batchSize maxRows rows st = st := by
  intro rows
  cases rows with
  | nil => intro st _; rfl
  | cons row rest =>
      intro st h
      simp only [jobLoop]
      rw [if_pos ⟨hm, h⟩]

/-- `flush` adds at most the buffered row count to the total. -/
theorem flush_total_le (engine : Engine) (st : JobState) :
    (flush engine st).total ≤ st.total + st.bufRows.length := by
  unfold flush
  split
  · simp
  · simp only [List.length_map]
    have h : (st.bufRows.zip (engine st.bufQ st.bufT)).length
        = min st.bufRows.length (engine st.bufQ st.bufT).length :=
      List.length_zip st.bufRows (engine st.bufQ st.bufT)
    omega

/-- `flush` always leaves the row buffer empty. -/
theorem flush_bufRows_nil (engine : Engine) (st : JobState) :
    (flush engine st).bufRows = [] := by
  unfold flush
  split
  · next hemp => exact List.isEmpty_iff.mp hemp
  · rfl

/-- Running-total bound under a cap: at the end of the loop, the total plus
the still-buffered rows never exceed `maxRows + (batchSize - 1)`. -/
theorem jobLoop_total_bound (engine : Engine) (batchSize maxRows : Nat)
    (hm : maxRows ≠ 0) :
    ∀ (rows : List Row) (st : JobState),
      st.total < maxRows →
      st.bufRows.length ≤ batchSize - 1 →
      (jobLoop engine batchSize maxRows rows st).total
        + (jobLoop engine batchSize maxRows rows st).bufRows.length
        ≤ maxRows + (batchSize - 1) := by
  intro rows
  induction rows with
  | nil =>
      intro st h1 h2
      simp only [jobLoop]
      omega
  | cons row rest ih =>
      intro st h1 h2
      simp only [jobLoop]
      split
      · next hcap => omega
      · split
        · by_cases hlt : st.total + 1 < maxRows
          · exact ih _ hlt (by simpa using h2)
          · rw [jobLoop_stopped engine batchSize maxRows hm rest _ (by simp; omega)]
            simp
            omega
        · set st' : JobState := { st with
            bufRows := st.bufRows ++ [row],
            bufQ := st.bufQ ++ [strip row.gameName],
            bufT := st.bufT ++ [strip row.candidateTitle] } with hst'
          split
          · next hbs =>
              have htot : (flush engine st').total
                  ≤ st.total + (st.bufRows.length + 1) := by
                have := flush_total_le engine st'
                simpa [hst'] using this
              have hbuf : (flush engine st').bufRows = [] :=
                flush_bufRows_nil engine st'
              by_cases hlt : (flush engine st').total < maxRows
              · exact ih (flush engine st') hlt (by rw [hbuf]; simp)
              · rw [jobLoop_stopped engine batchSize maxRows hm rest
                  (flush engine st') (le_of_not_lt hlt), hbuf]
                simp
                omega
          · next hbs =>
              have hlen' : st'.bufRows.length ≤ batchSize - 1 := by
                simp only [hst', List.length_append, List.length_cons,
                  List.length_nil] at hbs ⊢
                omega
              exact ih st' h1 hlen'

/-! ### Row chunking of tensor data -/

/-- The fuel of `chunksAux` is irrelevant as long as it covers the list. -/
theorem chunksAux_congr (k : Nat) :
    ∀ (fuelA fuelB : Nat) (l : List ℚ), l.length ≤ fuelA → l.length ≤ fuelB →
      chunksAux k fuelA l = chunksAux k fuelB l := by
  intro fuelA
  induction fuelA with
  | zero =>
      intro fuelB l h1 _
      have hl : l = [] := List.length_eq_zero.mp (Nat.le_zero.mp h1)
      subst hl
      cases fuelB <;> rfl
  | succ fuel ih =>
      intro fuelB l h1 h2
      cases l with
      | nil => cases fuelB <;> rfl
      | cons a l =>
          cases fuelB with
          | zero => simp at h2
          | succ fuelB =>
              simp only [chunksAux]
              by_cases hk : k = 0
              · simp [hk]
              · rw [if_neg hk, if_neg hk]
                congr 1
                apply ih
                · simp only [List.length_drop, List.length_cons]
                  simp only [List.length_cons] at h1
                  omega
                · simp only [List.length_drop, List.length_cons]
                  simp only [List.length_cons] at h2
                  omega

/-- Chunking a list that starts with a full chunk. -/
theorem chunks_cons (k : Nat) (hk : k ≠ 0) (c rest : List ℚ)
    (hc : c.length = k) :
    chunks k (c ++ rest) = c :: chunks k rest := by
  cases c with
  | nil => exact absurd hc.symm hk
  | cons a c' =>
      unfold chunks
      rw [List.cons_append, show ((a :: (c' ++ rest)).length)
        = (c' ++ rest).length + 1 from rfl]
      simp only [chunksAux]
      rw [if_neg hk]
      have htake : (a :: (c' ++ rest)).take k = a :: c' := by
        rw [← List.cons_append, ← hc, List.take_left]
      have hdrop : (a :: (c' ++ rest)).drop k = rest := by
        rw [← List.cons_append, ← hc, List.drop_left]
      rw [htake, hdrop]
      congr 1
      apply chunksAux_congr
      · simp only [List.length_append]
        omega
      · exact le_refl _

/-- The number of chunks of a list of length `k * n`. -/
theorem chunks_length (k : Nat) (hk : k ≠ 0) :
    ∀ (n : Nat) (l : List ℚ), l.length = k * n → (chunks k l).length = n := by
  intro n
  induction n with
  | zero =>
      intro l h
      have hl : l = [] := List.length_eq_zero.mp (by omega)
      subst hl
      rfl
  | succ n ih =>
      intro l h
      rw [Nat.mul_succ] at h
      have htk : (l.take k).length = k := by
        rw [List.length_take]
        omega
      conv_lhs => rw [← List.take_append_drop k l]
      rw [chunks_cons k hk _ _ htk, List.length_cons,
        ih (l.drop k) (by rw [List.length_drop]; omega)]

/-- Every chunk of a list of length `k * n` has length exactly `k`. -/
theorem chunks_mem_length (k : Nat) (hk : k ≠ 0) :
    ∀ (n : Nat) (l : List ℚ), l.length = k * n →
      ∀ r ∈ chunks k l, r.length = k := by
  intro n
  induction n with
  | zero =>
      intro l h r hr
      have hl : l = [] := List.length_eq_zero.mp (by omega)
      subst hl
      simp [chunks, chunksAux] at hr
  | succ n ih =>
      intro l h r hr
      rw [Nat.mul_succ] at h
      have htk : (l.take k).length = k := by
        rw [List.length_take]
        omega
      rw [← List.take_append_drop k l, chunks_cons k hk _ _ htk] at hr
      rcases List.mem_cons.mp hr with h1 | h1
      · rw [h1]; exact htk
      · exact ih (l.drop k) (by rw [List.length_drop]; omega) r h1

/-- Chunking the flattening of equal-length chunks recovers them. -/
theorem chunks_flatten (k : Nat) (hk : k ≠ 0) :
    ∀ (L : List (List ℚ)), (∀ r ∈ L, r.length = k) →
      chunks k L.flatten = L := by
  intro L
  induction L with
  | nil => intro _; rfl
  | cons r L ih =>
      intro h
      rw [List.flatten_cons,
        chunks_cons k hk r L.flatten (h r (List.mem_cons_self _ _)),
        ih (fun r' hr' => h r' (List.mem_cons_of_mem _ hr'))]

/-- `appScorePairs` is `normalizeLogits` applied to the inferred logits. -/
theorem appScorePairs_eq_normalize {β : Type}
    (tokenize : List Str → List Str → Nat → β) (toDevice : β → Str → β)
    (infer : β → Tensor) (sig ex : ℚ → ℚ) (device : Str) (maxLength : Nat)
    (queries texts : List Str) :
    appScorePairs tokenize toDevice infer sig ex device maxLength queries texts
      = normalizeLogits sig ex
          (infer (toDevice (tokenize queries texts maxLength) device)) := rfl

/-- Single-logit head `(n, 1)`: every row is scored by the sigmoid of its one
value. -/
theorem normalizeLogits_single (sig ex : ℚ → ℚ) (t : Tensor) (n : Nat)
    (h : t.shape = [n, 1]) :
    normalizeLogits sig ex t = t.data.map sig := by
  simp [normalizeLogits, Tensor.dim, Tensor.sizeLast, h, Tensor.squeezeLast,
    Tensor.mapData, Tensor.toScores]

/-- Binary head `(n, 2)`: every row is scored by the softmax probability of
its second class. -/
theorem normalizeLogits_binary (sig ex : ℚ → ℚ) (t : Tensor) (n : Nat)
    (h : t.shape = [n, 2]) (hd : t.data.length = 2 * n) :
    normalizeLogits sig ex t
      = (chunks 2 t.data).map
          (fun r => ex (r.getD 1 0) / (ex (r.getD 0 0) + ex (r.getD 1 0))) := by
  have hdim : t.dim = 2 := by simp [Tensor.dim, h]
  have hsl : t.sizeLast = 2 := by simp [Tensor.sizeLast, h]
  simp only [normalizeLogits, hdim, hsl]
  rw [if_neg (by simp), if_pos (by simp)]
  simp only [Tensor.softmaxLast, Tensor.col, Tensor.toScores, Tensor.sizeLast,
    h, show ([n, 2] : List Nat).getLastD 0 = 2 from rfl]
  rw [chunks_flatten 2 (by norm_num) _ (fun r hr => ?_), List.map_map]
  · apply List.map_congr_left
    intro r hr
    have h2 : r.length = 2 := chunks_mem_length 2 (by norm_num) n t.data hd r hr
    rcases r with _ | ⟨a, r⟩
    · simp at h2
    rcases r with _ | ⟨b, r⟩
    · simp at h2
    rcases r with _ | ⟨c, r⟩
    · simp [List.getD]
    · simp at h2
  · obtain ⟨r', hr', rfl⟩ := List.mem_map.mp hr
    simp [chunks_mem_length 2 (by norm_num) n t.data hd r' hr']

/-- Any other head shape: every row of the flattened view is scored by the
sigmoid of its first element. -/
theorem normalizeLogits_fallback (sig ex : ℚ → ℚ) (t : Tensor)
    (h1 : ¬(t.dim = 2 ∧ t.sizeLast = 1)) (h2 : ¬(t.dim = 2 ∧ t.sizeLast = 2)) :
    normalizeLogits sig ex t
      = (chunks (t.data.length / t.size0) t.data).map
          (fun r => sig (r.getD 0 0)) := by
  simp only [normalizeLogits]
  rw [if_neg h1, if_neg h2]
  simp [Tensor.reshapeRows, Tensor.col, Tensor.sizeLast, Tensor.mapData,
    Tensor.toScores, List.map_map]

/-- A 2-dimensional shape is determined by its head and its last size. -/
theorem shape_eq_pair (t : Tensor) (n : Nat) (rest : List Nat) (k : Nat)
    (hshape : t.shape = n :: rest) (hdim : t.dim = 2) (hsl : t.sizeLast = k) :
    t.shape = [n, k] := by
  rw [Tensor.dim, hshape] at hdim
  rcases rest with _ | ⟨r, rest'⟩
  · simp at hdim
  · rcases rest' with _ | ⟨r2, rest''⟩
    · rw [Tensor.sizeLast, hshape] at hsl
      have hr : r = k := hsl
      rw [hshape, hr]
    · simp only [List.length_cons] at hdim
      exact absurd hdim (by omega)

/-- Under the model's batch contract (first dimension = number of rows,
row-size nonzero, well-formed data), `normalizeLogits` yields one score per
row, and bounded scalar transforms keep every score inside the unit
interval. -/
theorem normalizeLogits_length_bounds (sig ex : ℚ → ℚ) (t : Tensor)
    (n : Nat) (rest : List Nat)
    (hshape : t.shape = n :: rest)
    (hwf : t.data.length = t.shape.prod)
    (hrow : rest.prod ≠ 0)
    (hsig : ∀ x, 0 ≤ sig x ∧ sig x ≤ 1)
    (hex : ∀ x, 0 < ex x) :
    (normalizeLogits sig ex t).length = n
    ∧ ∀ x ∈ normalizeLogits sig ex t, 0 ≤ x ∧ x ≤ 1 := by
  by_cases hb1 : t.dim = 2 ∧ t.sizeLast = 1
  · have hsh : t.shape = [n, 1] := shape_eq_pair t n rest 1 hshape hb1.1 hb1.2
    rw [normalizeLogits_single sig ex t n hsh]
    refine ⟨by rw [List.length_map, hwf, hsh]; simp, ?_⟩
    intro x hx
    obtain ⟨y, -, rfl⟩ := List.mem_map.mp hx
    exact hsig y
  · by_cases hb2 : t.dim = 2 ∧ t.sizeLast = 2
    · have hsh : t.shape = [n, 2] := shape_eq_pair t n rest 2 hshape hb2.1 hb2.2
      have hd : t.data.length = 2 * n := by
        rw [hwf, hsh]
        simp [Nat.mul_comm]
      rw [normalizeLogits_binary sig ex t n hsh hd]
      refine ⟨by rw [List.length_map,
        chunks_length 2 (by norm_num) n t.data hd], ?_⟩
      intro x hx
      obtain ⟨r, -, rfl⟩ := List.mem_map.mp hx
      have ha := hex (r.getD 0 0)
      have hb := hex (r.getD 1 0)
      constructor
      · exact div_nonneg (le_of_lt hb) (by linarith)
      · rw [div_le_one (by linarith)]
        linarith
    · rw [normalizeLogits_fallback sig ex t hb1 hb2]
      have hs0 : t.size0 = n := by simp [Tensor.size0, hshape]
      by_cases hn : n = 0
      · have hdata : t.data = [] := by
          apply List.length_eq_zero.mp
          rw [hwf, hshape, hn]
          simp
        refine ⟨?_, ?_⟩
        · rw [List.length_map, hdata]
          simp [chunks, chunksAux, hn]
        · intro x hx
          rw [hdata] at hx
          simp [chunks, chunksAux] at hx
      · have hlen : t.data.length = rest.prod * n := by
          rw [hwf, hshape]
          simp [Nat.mul_comm]
        have hm : t.data.length / t.size0 = rest.prod := by
          rw [hs0, hlen, Nat.mul_div_cancel _ (Nat.pos_of_ne_zero hn)]
        rw [hm]
        refine ⟨by rw [List.length_map,
          chunks_length rest.prod hrow n t.data hlen], ?_⟩
        intro x hx
        obtain ⟨r, -, rfl⟩ := List.mem_map.mp hx
        exact hsig _

/-- Every row `flush` writes is a pass-through (blank) row or a buffered row
with its `reasons` rewritten. -/
theorem flush_out_shape (engine : Engine) (st : JobState)
    (h : ∀ r ∈ st.out, blankRow r ∨ ∃ (row : Row) (s : ℚ),
      r = { row with reasons := rewriteReasons row.reasons s }) :
    ∀ r ∈ (flush engine st).out, blankRow r ∨ ∃ (row : Row) (s : ℚ),
      r = { row with reasons := rewriteReasons row.reasons s } := by
  unfold flush
  split
  · exact h
  · intro r hr
    simp only [List.mem_append] at hr
    rcases hr with h1 | h1
    · exact h r h1
    · obtain ⟨rs, -, rfl⟩ := List.mem_map.mp h1
      exact Or.inr ⟨rs.1, rs.2, rfl⟩

/-- Every row the whole loop writes is a pass-through (blank) row or a row
with its `reasons` rewritten. -/
theorem jobLoop_out_shape (engine : Engine) (batchSize maxRows : Nat) :
    ∀ (rows : List Row) (st : JobState),
      (∀ r ∈ st.out, blankRow r ∨ ∃ (row : Row) (s : ℚ),
        r = { row with reasons := rewriteReasons row.reasons s }) →
      ∀ r ∈ (flush engine (jobLoop engine batchSize maxRows rows st)).out,
        blankRow r ∨ ∃ (row : Row) (s : ℚ),
          r = { row with reasons := rewriteReasons row.reasons s } := by
  intro rows
  induction rows with
  | nil => intro st h; exact flush_out_shape engine st h
  | cons row rest ih =>
      intro st h
      simp only [jobLoop]
      split
      · exact flush_out_shape engine st h
      · split
        · next hblank =>
            apply ih
            intro r hr
            simp only [List.mem_append, List.mem_singleton] at hr
            rcases hr with h1 | h1
            · exact h r h1
            · subst h1
              left
              simpa [blankRow, List.isEmpty_iff] using hblank
        · split
          · exact ih _ (flush_out_shape engine _ h)
          · exact ih _ h

/-! ## Claims -/

/-- Claim C1, counterexample: with batch size 2 and an input consisting of a
scorable row followed by a pass-through row, the pass-through row is written
before the buffered scorable row, so the output rows are not in input
order. -/
theorem claim1_counterexample :
    (runJob engine812 2 0 [chessRow, blankQueryRow]).out.map eraseReasons
      ≠ [chessRow, blankQueryRow].map eraseReasons := by decide

/-- Claim C1, amended: with a length-preserving engine and no row cap, the
output consists of exactly the input rows with the same columns (only the
annotation column may differ) — in input order whenever every input row is
scorable, and in general up to a permutation, because a pass-through row is
written before the scorable rows still held in the buffer. -/
theorem claim1_columns_and_order (engine : Engine) (batchSize : Nat)
    (rows : List Row)
    (hlen : ∀ qs ts, (engine qs ts).length = qs.length) :
    ((∀ r ∈ rows, ¬ blankRow r) →
      (runJob engine batchSize 0 rows).out.map eraseReasons
        = rows.map eraseReasons)
    ∧ ((runJob engine batchSize 0 rows).out.map eraseReasons).Perm
        (rows.map eraseReasons) := by
  constructor
  · intro hsc
    have h := jobLoop_scorable_erase engine batchSize hlen rows initState rfl hsc
    simpa [runJob, initState] using h
  · have h := jobLoop_perm_erase engine batchSize hlen rows initState rfl
    simpa [runJob, initState] using h

/-- Witness for `claim1_columns_and_order` at a concrete engine and input. -/
theorem claim1_columns_and_order_witness :
    ((∀ r ∈ [chessRow, chessRow, chessRow], ¬ blankRow r) →
      (runJob engine812 2 0 [chessRow, chessRow, chessRow]).out.map
        eraseReasons = [chessRow, chessRow, chessRow].map eraseReasons)
    ∧ ((runJob engine812 2 0 [chessRow, chessRow, chessRow]).out.map
        eraseReasons).Perm ([chessRow, chessRow, chessRow].map eraseReasons) :=
  claim1_columns_and_order engine812 2 [chessRow, chessRow, chessRow]
    (fun qs ts => by simp [engine812])

/-- Claim C2, counterexample: with `--max-rows 1`, batch size 2 and two
scorable rows, both rows are written — buffered rows do not count toward the
total until a flush, and the final flush still writes them, so the output
exceeds the cap. -/
theorem claim2_counterexample :
    ¬ (runJob engine812 2 1 [chessRow, chessRow]).out.length ≤ 1 := by decide

/-- Claim C2, amended: with `--max-rows N > 0` the loop stops reading input
once the running total reaches `N`, and rows never read are neither scored
nor written; but rows already buffered are still flushed, so as many as
`N + batchSize - 1` rows can be written. -/
theorem claim2_cap_bound (engine : Engine) (batchSize maxRows : Nat)
    (rows : List Row) (hm : maxRows ≠ 0) :
    (runJob engine batchSize maxRows rows).out.length
      ≤ maxRows + (batchSize - 1) := by
  rw [runJob_out_total]
  have hb := jobLoop_total_bound engine batchSize maxRows hm rows initState
    (Nat.pos_of_ne_zero hm) (by simp [initState])
  have hf := flush_total_le engine
    (jobLoop engine batchSize maxRows rows initState)
  unfold runJob
  omega

/-- Witness for `claim2_cap_bound` at a concrete engine and input. -/
theorem claim2_cap_bound_witness :
    (runJob engine812 2 1 [chessRow, chessRow]).out.length ≤ 1 + (2 - 1) :=
  claim2_cap_bound engine812 2 1 [chessRow, chessRow] (by decide)

/-- Claim C3: on a second run over the output of a first run (indeed over any
input), every scorable output row carries exactly one marker clause, whose
value is the score the second run formatted; concretely, re-running the spec
example with the engine now returning 0.900 yields
`"title match|reranker score 0.900"` — replaced, not appended. -/
theorem claim3_idempotent_second_run :
    (∀ (e1 e2 : Engine) (bs1 bs2 mr1 mr2 : Nat) (rows : List Row),
      ∀ r ∈ (runJob e2 bs2 mr2 (runJob e1 bs1 mr1 rows).out).out,
        ¬ blankRow r →
        ∃ s : ℚ, ((r.reasons.splitOn '|').map strip).filter
            (fun p => startsWithL rerankerMarker p)
          = [rerankerMarker ++ format3 s])
    ∧ (runJob engine900 2 0 (runJob engine812 2 0 [chessRow]).out).out
      = [⟨"Chess".data, "Chess Online".data,
          "title match|reranker score 0.900".data, []⟩] := by
  constructor
  · intro e1 e2 bs1 bs2 mr1 mr2 rows r hr hblank
    have hshape := jobLoop_out_shape e2 bs2 mr2
      ((runJob e1 bs1 mr1 rows).out) initState
      (by intro r' hr'; simp [initState] at hr') r hr
    rcases hshape with h | ⟨row, s, rfl⟩
    · exact absurd h hblank
    · exact ⟨s, rewriteReasons_marker_clauses row.reasons s⟩
  · decide

/-- Witness for the first part of `claim3_idempotent_second_run`: the single
row the two concrete runs produce indeed carries exactly one marker
clause. -/
theorem claim3_idempotent_second_run_witness :
    ∃ s : ℚ, ((((runJob engine900 2 0
        (runJob engine812 2 0 [chessRow]).out).out.headD
        chessRow).reasons.splitOn '|').map strip).filter
          (fun p => startsWithL rerankerMarker p)
      = [rerankerMarker ++ format3 s] :=
  claim3_idempotent_second_run.1 engine812 engine900 2 2 0 0 [chessRow]
    ((runJob engine900 2 0 (runJob engine812 2 0 [chessRow]).out).out.headD
      chessRow)
    (by decide) (by decide)

/-- Claim C4: `flush` rewrites each flushed row's annotation column by
stripping it, splitting on pipes, stripping each clause, dropping the empty
and already-marked clauses, appending the fresh `"reranker score "` clause
with the score formatted to three decimals, and rejoining with pipes; the
spec example with score 0.812 yields
`"title match|reranker score 0.812"`. -/
theorem claim4_rewrite_rule :
    (∀ (engine : Engine) (st : JobState),
      (flush engine st).out
        = st.out ++ (st.bufRows.zip (engine st.bufQ st.bufT)).map
            (fun rs =>
              { rs.1 with
                reasons := List.intercalate ['|']
                  (((((strip rs.1.reasons).splitOn '|').map strip).filter
                      (fun p => !p.isEmpty && !startsWithL rerankerMarker p))
                    ++ [rerankerMarker ++ format3 rs.2]) }))
    ∧ rewriteReasons "title match".data (Rat.divInt 203 250)
        = "title match|reranker score 0.812".data := by
  constructor
  · intro engine st
    unfold flush
    split
    · next hemp =>
        rw [List.isEmpty_iff.mp hemp]
        simp
    · rfl
  · decide

/-- Claim C5: the scoring function dispatches on the logits shape — one value
per row gives the rowwise sigmoid, two values per row gives the softmax
probability of the second (positive) class, and any other shape flattens
each row and applies the sigmoid to its first element. -/
theorem claim5_shape_dispatch {β : Type}
    (tokenize : List Str → List Str → Nat → β) (toDevice : β → Str → β)
    (infer : β → Tensor) (sig ex : ℚ → ℚ) (device : Str) (maxLength : Nat)
    (queries texts : List Str) :
    (∀ n, (infer (toDevice (tokenize queries texts maxLength) device)).shape
        = [n, 1] →
      appScorePairs tokenize toDevice infer sig ex device maxLength queries
        texts
      = (infer (toDevice (tokenize queries texts maxLength) device)).data.map
          sig)
    ∧ (∀ n, (infer (toDevice (tokenize queries texts maxLength) device)).shape
        = [n, 2] →
      (infer (toDevice (tokenize queries texts maxLength) device)).data.length
        = 2 * n →
      appScorePairs tokenize toDevice infer sig ex device maxLength queries
        texts
      = (chunks 2 (infer (toDevice (tokenize queries texts maxLength)
          device)).data).map
          (fun r => ex (r.getD 1 0) / (ex (r.getD 0 0) + ex (r.getD 1 0))))
    ∧ (¬((infer (toDevice (tokenize queries texts maxLength) device)).dim = 2
        ∧ (infer (toDevice (tokenize queries texts maxLength)
            device)).sizeLast = 1) →
      ¬((infer (toDevice (tokenize queries texts maxLength) device)).dim = 2
        ∧ (infer (toDevice (tokenize queries texts maxLength)
            device)).sizeLast = 2) →
      appScorePairs tokenize toDevice infer sig ex device maxLength queries
        texts
      = (chunks ((infer (toDevice (tokenize queries texts maxLength)
            device)).data.length
          / (infer (toDevice (tokenize queries texts maxLength)
            device)).size0)
          (infer (toDevice (tokenize queries texts maxLength) device)).data).map
          (fun r => sig (r.getD 0 0))) := by
  refine ⟨fun n h => ?_, fun n h hd => ?_, fun hb1 hb2 => ?_⟩
  · rw [appScorePairs_eq_normalize]
    exact normalizeLogits_single sig ex _ n h
  · rw [appScorePairs_eq_normalize]
    exact normalizeLogits_binary sig ex _ n h hd
  · rw [appScorePairs_eq_normalize]
    exact normalizeLogits_fallback sig ex _ hb1 hb2

/-- Witness for `claim5_shape_dispatch`: a concrete single-logit stub model
falls into the first branch. -/
theorem claim5_shape_dispatch_witness :
    appScorePairs pairTok idMove oneLogitInfer halfSig oneEx "cpu".data 256
      ["a".data] ["b".data]
    = (oneLogitInfer (idMove (pairTok ["a".data] ["b".data] 256)
        "cpu".data)).data.map halfSig :=
  (claim5_shape_dispatch pairTok idMove oneLogitInfer halfSig oneEx
    "cpu".data 256 ["a".data] ["b".data]).1 1 (by decide)

/-- Claim C6: for equal-length query and text lists, and a model honouring
the batch contract (logits carry one row per input pair, rows are nonempty,
the data fills the shape) with calibrated scalar transforms, scoring returns
exactly one value per pair, each within the unit interval. -/
theorem claim6_score_contract {β : Type}
    (tokenize : List Str → List Str → Nat → β) (toDevice : β → Str → β)
    (infer : β → Tensor) (sig ex : ℚ → ℚ) (device : Str) (maxLength : Nat)
    (queries texts : List Str) (rest : List Nat)
    (hqt : queries.length = texts.length)
    (hshape : (infer (toDevice (tokenize queries texts maxLength)
      device)).shape = queries.length :: rest)
    (hwf : (infer (toDevice (tokenize queries texts maxLength)
      device)).data.length
      = (infer (toDevice (tokenize queries texts maxLength)
        device)).shape.prod)
    (hrow : rest.prod ≠ 0)
    (hsig : ∀ x, 0 ≤ sig x ∧ sig x ≤ 1)
    (hex : ∀ x, 0 < ex x) :
    (appScorePairs tokenize toDevice infer sig ex device maxLength queries
      texts).length = queries.length
    ∧ ∀ x ∈ appScorePairs tokenize toDevice infer sig ex device maxLength
        queries texts, 0 ≤ x ∧ x ≤ 1 := by
  have h := normalizeLogits_length_bounds sig ex
    (infer (toDevice (tokenize queries texts maxLength) device))
    queries.length rest hshape hwf hrow hsig hex
  rw [appScorePairs_eq_normalize]
  exact h

/-- Witness for `claim6_score_contract` at a concrete stub model. -/
theorem claim6_score_contract_witness :
    (appScorePairs pairTok idMove oneLogitInfer halfSig oneEx "cpu".data 256
      ["a".data] ["b".data]).length = ["a".data].length
    ∧ ∀ x ∈ appScorePairs pairTok idMove oneLogitInfer halfSig oneEx
        "cpu".data 256 ["a".data] ["b".data], 0 ≤ x ∧ x ≤ 1 :=
  claim6_score_contract pairTok idMove oneLogitInfer halfSig oneEx
    "cpu".data 256 ["a".data] ["b".data] [1] rfl (by decide) (by decide)
    (by decide) (fun x => by norm_num [halfSig]) (fun x => by norm_num [oneEx])

/-- Claim C7: with batch size 2 and exactly five scorable rows, the engine
is invoked three times on batches of sizes 2, 2 and 1 (the final partial
batch at end of input), and five rows are written in total. -/
theorem claim7_batch_boundary (engine : Engine)
    (hlen : ∀ qs ts, (engine qs ts).length = qs.length)
    (r1 r2 r3 r4 r5 : Row)
    (h1 : ¬ blankRow r1) (h2 : ¬ blankRow r2) (h3 : ¬ blankRow r3)
    (h4 : ¬ blankRow r4) (h5 : ¬ blankRow r5) :
    ((runJob engine 2 0 [r1, r2, r3, r4, r5]).calls.map
      (fun c => c.1.length) = [2, 2, 1])
    ∧ (runJob engine 2 0 [r1, r2, r3, r4, r5]).total = 5 := by
  simp only [blankRow, not_or] at h1 h2 h3 h4 h5
  simp [runJob, jobLoop, flush, initState, List.isEmpty_iff,
    h1.1, h1.2, h2.1, h2.2, h3.1, h3.2, h4.1, h4.2, h5.1, h5.2,
    List.length_zip, hlen]

/-- Witness for `claim7_batch_boundary` at a concrete engine and rows. -/
theorem claim7_batch_boundary_witness :
    ((runJob engine812 2 0
      [chessRow, chessRow, chessRow, chessRow, chessRow]).calls.map
      (fun c => c.1.length) = [2, 2, 1])
    ∧ (runJob engine812 2 0
      [chessRow, chessRow, chessRow, chessRow, chessRow]).total = 5 :=
  claim7_batch_boundary engine812 (fun qs ts => by simp [engine812])
    chessRow chessRow chessRow chessRow chessRow
    (by decide) (by decide) (by decide) (by decide) (by decide)

/-- Claim C8: a row whose query or text field is blank after stripping is
written through immediately and unmodified, never buffered, never given to
the engine, and counted toward the total: processing it only appends the row
to the output and bumps the total, leaving buffers and the call log
untouched. -/
theorem claim8_passthrough (engine : Engine) (batchSize maxRows : Nat)
    (row : Row) (rest : List Row) (st : JobState)
    (hcap : ¬(maxRows ≠ 0 ∧ maxRows ≤ st.total))
    (hblank : blankRow row) :
    jobLoop engine batchSize maxRows (row :: rest) st
      = jobLoop engine batchSize maxRows rest
          { st with out := st.out ++ [row], total := st.total + 1 } := by
  simp only [jobLoop]
  rw [if_neg hcap]
  split
  · rfl
  · next hb =>
      exfalso
      rcases hblank with h | h <;> simp [List.isEmpty_iff, h] at hb

/-- Witness for `claim8_passthrough` at a concrete blank row. -/
theorem claim8_passthrough_witness :
    jobLoop engine812 2 0 [blankQueryRow] initState
      = jobLoop engine812 2 0 []
          { initState with
            out := initState.out ++ [blankQueryRow]
            total := initState.total + 1 } :=
  claim8_passthrough engine812 2 0 blankQueryRow [] initState
    (by decide) (by decide)

/-- Claim C9: `batch_score` on an empty pair list answers with no scores and
no engine call; on a nonempty list it calls the engine exactly once on the
full query and text lists and returns one entry per pair, in input order,
pairing each original id with the engine's score for that pair. -/
theorem claim9_batch_score (engine : Engine) (pairs : List BatchPair)
    (hlen : ∀ qs ts, (engine qs ts).length = qs.length) :
    (pairs = [] → batchScore engine pairs = ([], []))
    ∧ (pairs ≠ [] →
        (batchScore engine pairs).2
          = [(pairs.map (·.query), pairs.map (·.text))]
        ∧ (batchScore engine pairs).1.map Prod.fst = pairs.map (·.id)
        ∧ (batchScore engine pairs).1.map Prod.snd
            = engine (pairs.map (·.query)) (pairs.map (·.text))) := by
  constructor
  · intro h
    subst h
    rfl
  · intro hne
    have hemp : pairs.isEmpty = false := by
      simpa [List.isEmpty_iff] using hne
    have hq : (engine (pairs.map (·.query)) (pairs.map (·.text))).length
        = pairs.length := by
      rw [hlen, List.length_map]
    simp only [batchScore, hemp, Bool.false_eq_true, if_false]
    refine ⟨trivial, ?_, ?_⟩
    · rw [List.map_map,
        show ((Prod.fst ∘ fun ps : BatchPair × ℚ => (ps.1.id, ps.2)))
          = ((fun r : BatchPair => r.id) ∘ Prod.fst) from rfl,
        ← List.map_map, List.map_fst_zip _ _ (le_of_eq hq.symm)]
    · rw [List.map_map,
        show ((Prod.snd ∘ fun ps : BatchPair × ℚ => (ps.1.id, ps.2)))
          = (Prod.snd : BatchPair × ℚ → ℚ) from rfl,
        List.map_snd_zip _ _ (le_of_eq hq)]

/-- Witness for `claim9_batch_score` at a concrete engine and pair list. -/
theorem claim9_batch_score_witness :
    (([pair1] : List BatchPair) = [] → batchScore engine812 [pair1] = ([], []))
    ∧ (([pair1] : List BatchPair) ≠ [] →
        (batchScore engine812 [pair1]).2
          = [([pair1].map (·.query), [pair1].map (·.text))]
        ∧ (batchScore engine812 [pair1]).1.map Prod.fst = [pair1].map (·.id)
        ∧ (batchScore engine812 [pair1]).1.map Prod.snd
            = engine812 ([pair1].map (·.query)) ([pair1].map (·.text))) :=
  claim9_batch_score engine812 [pair1] (fun qs ts => by simp [engine812])

/-- Claim C10: the service's scoring function (`_score_pairs` in app.py) and
the enrichment job's scoring function (`score_pairs` in enrich_csv.py) are
extensionally equal: with the same tokenizer, model, device and maximum
token length they return identical score lists on every input. -/
theorem claim10_scoring_equivalence {β : Type}
    (tokenize : List Str → List Str → Nat → β) (toDevice : β → Str → β)
    (infer : β → Tensor) (sig ex : ℚ → ℚ) (device : Str) (maxLength : Nat)
    (queries texts : List Str) :
    appScorePairs tokenize toDevice infer sig ex device maxLength queries
      texts
    = enrichScorePairs tokenize toDevice infer sig ex device maxLength
        queries texts := rfl
